import Mathlib

/-
Verification of the RL core of the Morpion (tic-tac-toe) Q-learning
repository: a shallow embedding of the game environment
(`engine/environment.py`), the tabular Q-learning agent
(`rl_logic/agent.py`), the trainer's episode loop (`rl_logic/trainer.py`),
the Elo rating update (`rl_logic/elo_system.py`) and the tournament
orchestration (`rl_logic/tournament.py`), together with theorems settling
the specification claims about them.

Numeric modelling: Python floats are modelled by `ℚ` (exact rationals) for
the agent/trainer/tournament and by `ℝ` for the Elo computation, which uses
a real exponential.  Machine randomness (`random.random`, `random.choice`)
is modelled by explicit oracle functions supplied as parameters.
-/

namespace Morpion

/-! Game environment, from `engine/environment.py`. -/

/-- A flattened 3 by 3 board: nine cells, `1` for X, `-1` for O, `0` empty
(the board of `TicTacToeEnvironment`, flattened as in `get_state`). -/
abbrev Board := List Int

/-- A game state as returned by `TicTacToeEnvironment.get_state`:
the flattened board together with the current player. -/
abbrev GState := Board × Int

/-- The mutable state of `TicTacToeEnvironment`: the board and the player
whose turn it is. -/
structure EnvSt where
  board : Board
  current : Int
deriving DecidableEq

/-- Embedding of `TicTacToeEnvironment.reset`: empty board, X to move. -/
def envReset : EnvSt := ⟨List.replicate 9 0, 1⟩

/-- Embedding of `TicTacToeEnvironment.get_state`. -/
def get_state (e : EnvSt) : GState := (e.board, e.current)

/-- Cell `i` of a flattened board (out-of-range reads as empty). -/
def cell (b : Board) (i : Nat) : Int := b.getD i 0

/-- Embedding of `TicTacToeEnvironment.legal_actions`: the indices of the
empty cells, in increasing order. -/
def legal_actions (b : Board) : List Nat :=
  (List.range 9).filter (fun i => cell b i == 0)

/-- Sum of the three cells of one line. -/
def lineSum (b : Board) (i j k : Nat) : Int := cell b i + cell b j + cell b k

/-- Embedding of `TicTacToeEnvironment._check_winner`: rows, then columns,
then the two diagonals; a line whose absolute sum is 3 is a win for the
player occupying it. -/
def check_winner (b : Board) : Option Int :=
  if (lineSum b 0 1 2).natAbs = 3 then some (cell b 0)
  else if (lineSum b 3 4 5).natAbs = 3 then some (cell b 3)
  else if (lineSum b 6 7 8).natAbs = 3 then some (cell b 6)
  else if (lineSum b 0 3 6).natAbs = 3 then some (cell b 0)
  else if (lineSum b 1 4 7).natAbs = 3 then some (cell b 1)
  else if (lineSum b 2 5 8).natAbs = 3 then some (cell b 2)
  else if (lineSum b 0 4 8).natAbs = 3 then some (cell b 0)
  else if (lineSum b 2 4 6).natAbs = 3 then some (cell b 2)
  else none

/-- Embedding of `TicTacToeEnvironment.apply_action` (the legality guard of
the source raises on an illegal action; callers below check membership in
`legal_actions` before calling this).  Returns the new environment state,
the reward from the mover's perspective (1 win, -1 loss, 1/2 draw,
0 ongoing) and the done flag; the player only flips when the game goes on. -/
def apply_action (e : EnvSt) (a : Nat) : EnvSt × ℚ × Bool :=
  let b := e.board.set a e.current
  let w := check_winner b
  let done := w.isSome || (legal_actions b).isEmpty
  let reward : ℚ :=
    if w = some e.current then 1
    else if w.isSome then -1
    else if done then 1/2
    else 0
  let cur := if done then e.current else -e.current
  (⟨b, cur⟩, reward, done)

/-- Embedding of `TicTacToeEnvironment.get_winner`. -/
def get_winner (e : EnvSt) : Option Int := check_winner e.board

/-- The initial game state. -/
def sInit : GState := get_state envReset

/-! Association lists, used to embed Python dicts: lookup finds the first
binding, assignment replaces in place or appends a fresh binding at the
end (Python dict insertion order). -/

/-- Lookup in an association list. -/
def alook {α β : Type} [DecidableEq α] : List (α × β) → α → Option β
  | [], _ => none
  | (a, v) :: r, x => if a = x then some v else alook r x

/-- Assignment in an association list: replace the existing binding in
place, or append a fresh one at the end. -/
def aset {α β : Type} [DecidableEq α] : List (α × β) → α → β → List (α × β)
  | [], a, v => [(a, v)]
  | (b, w) :: r, a, v => if b = a then (b, v) :: r else (b, w) :: aset r a v

/-! The tabular Q-learning agent, from `rl_logic/agent.py`.  The Python
Q-table is `defaultdict(lambda: defaultdict(float))`: merely reading an
unseen (state, action) pair inserts a fresh zero entry, so the read
operations below return the table after the read alongside the value. -/

/-- The inner map of the Q-table: action to Q-value. -/
abbrev Inner := List (Nat × ℚ)

/-- The Q-table of `QLearningAgent`: state to inner map. -/
abbrev QTable := List (GState × Inner)

/-- Embedding of `QLearningAgent.get_q_value`.  Because of the nested
default dicts, a read of an unseen pair autovivifies it: the pair returned
is (value read, table after the read). -/
def get_q_value (qt : QTable) (s : GState) (a : Nat) : ℚ × QTable :=
  match alook qt s with
  | none => (0, qt ++ [(s, [(a, 0)])])
  | some inner =>
    match alook inner a with
    | none => (0, aset qt s (inner ++ [(a, 0)]))
    | some v => (v, qt)

/-- The count of known states, `len(self.q_table)` in the source. -/
def numStates (qt : QTable) : Nat := qt.length

/-- The purely observational reading of a Q-value: the stored value, or 0
if the pair was never visited.  This is the specification's reading
semantics, with no side effect. -/
def storedQ (qt : QTable) (s : GState) (a : Nat) : ℚ :=
  ((alook qt s).bind (fun m => alook m a)).getD 0

/-- Worker for `get_max_q_value`: folds `get_q_value` over the remaining
actions, threading the (possibly growing) table. -/
def getMaxQGo (s : GState) : List Nat → ℚ → QTable → ℚ × QTable
  | [], m, qt => (m, qt)
  | a :: r, m, qt =>
    let p := get_q_value qt s a
    getMaxQGo s r (max m p.1) p.2

/-- Embedding of `QLearningAgent.get_max_q_value`: 0 on an empty action
list, otherwise the maximum of `get_q_value` over the actions. -/
def get_max_q_value (qt : QTable) (s : GState) (legal : List Nat) : ℚ × QTable :=
  match legal with
  | [] => (0, qt)
  | a :: r =>
    let p := get_q_value qt s a
    getMaxQGo s r p.1 p.2

/-- Embedding of the write `self.q_table[state][action] = new_q`. -/
def writeQ (qt : QTable) (s : GState) (a : Nat) (v : ℚ) : QTable :=
  match alook qt s with
  | none => qt ++ [(s, [(a, v)])]
  | some inner => aset qt s (aset inner a v)

/-- Embedding of `QLearningAgent.update`, the tabular Bellman update:
read the current value, compute the target (the bare reward when done,
otherwise reward plus gamma times the bootstrapped maximum), and store
old plus alpha times (target minus old). -/
def bellman_update (alpha gamma : ℚ) (qt : QTable) (s : GState) (a : Nat)
    (reward : ℚ) (ns : GState) (nla : List Nat) (done : Bool) : QTable :=
  let p := get_q_value qt s a
  let tp : ℚ × QTable :=
    if done then (reward, p.2)
    else
      let m := get_max_q_value p.2 ns nla
      (reward + gamma * m.1, m.2)
  let newq := p.1 + alpha * (tp.1 - p.1)
  writeQ tp.2 s a newq

/-- The specification-side maximum of stored Q-values over a list of
actions (0 when the list is empty). -/
def storedMaxQ (qt : QTable) (s : GState) (legal : List Nat) : ℚ :=
  match legal with
  | [] => 0
  | a :: r => r.foldl (fun m x => max m (storedQ qt s x)) (storedQ qt s a)

/-! Exploration-rate operations of `QLearningAgent`. -/

/-- Embedding of `QLearningAgent.decay_epsilon`. -/
def decay_epsilon (epsMin epsDecay e : ℚ) : ℚ := max epsMin (e * epsDecay)

/-- Embedding of `QLearningAgent.set_epsilon`: clamps into [0, 1]. -/
def set_epsilon (x : ℚ) : ℚ := max 0 (min 1 x)

/-- Iterated `decay_epsilon`. -/
def decayIter (epsMin epsDecay : ℚ) : Nat → ℚ → ℚ
  | 0, e => e
  | n + 1, e => decayIter epsMin epsDecay n (decay_epsilon epsMin epsDecay e)

/-- The exploration-rate bookkeeping of `Trainer.evaluate`: the agent's
epsilon is set to the evaluation value on entry and set back to the saved
original on exit, both through `set_epsilon`.  Returns (epsilon during
evaluation, epsilon after evaluation). -/
def evalEpsTrace (orig evalEps : ℚ) : ℚ × ℚ := (set_epsilon evalEps, set_epsilon orig)

/-! Observation lemmas: the autovivifying reads return exactly the stored
values and never change any stored value. -/

/-- Observation equivalence of Q-tables: every pair reads the same value. -/
def qtEquiv (qt qt' : QTable) : Prop := ∀ s a, storedQ qt s a = storedQ qt' s a

theorem qtEquiv_refl (qt : QTable) : qtEquiv qt qt := fun _ _ => rfl

theorem qtEquiv_trans {q1 q2 q3 : QTable} (h1 : qtEquiv q1 q2) (h2 : qtEquiv q2 q3) :
    qtEquiv q1 q3 := fun s a => (h1 s a).trans (h2 s a)

theorem alook_append_left {α β : Type} [DecidableEq α] {l : List (α × β)}
    {x : α} {v : β} (l2 : List (α × β)) (h : alook l x = some v) :
    alook (l ++ l2) x = some v := by
  induction l with
  | nil => simp [alook] at h
  | cons hd tl ih =>
    obtain ⟨a, w⟩ := hd
    simp only [alook, List.cons_append] at h ⊢
    split at h
    · simp [*]
    · simp only [*, if_neg, not_false_iff]
      exact ih h

theorem alook_append_right {α β : Type} [DecidableEq α] {l : List (α × β)}
    {x : α} (l2 : List (α × β)) (h : alook l x = none) :
    alook (l ++ l2) x = alook l2 x := by
  induction l with
  | nil => simp
  | cons hd tl ih =>
    obtain ⟨a, w⟩ := hd
    simp only [alook, List.cons_append] at h ⊢
    split at h
    · exact absurd h (by simp)
    · simp only [*, if_neg, not_false_iff]
      exact ih h

theorem alook_aset {α β : Type} [DecidableEq α] (l : List (α × β)) (a : α) (v : β)
    (x : α) : alook (aset l a v) x = if a = x then some v else alook l x := by
  induction l with
  | nil => simp [aset, alook]
  | cons hd tl ih =>
    obtain ⟨b, w⟩ := hd
    by_cases hba : b = a
    · subst hba
      by_cases hbx : b = x <;> simp [aset, alook, hbx]
    · by_cases hbx : b = x
      · subst hbx
        have : ¬ a = b := fun h => hba h.symm
        simp [aset, alook, hba, this]
      · simp [aset, alook, hba, hbx, ih]

theorem get_q_value_fst (qt : QTable) (s : GState) (a : Nat) :
    (get_q_value qt s a).1 = storedQ qt s a := by
  unfold get_q_value storedQ
  cases h1 : alook qt s with
  | none => simp [h1]
  | some inner =>
    cases h2 : alook inner a with
    | none => simp [h1, h2]
    | some v => simp [h1, h2]

theorem get_q_value_equiv (qt : QTable) (s : GState) (a : Nat) :
    qtEquiv (get_q_value qt s a).2 qt := by
  intro s' a'
  unfold get_q_value
  split
  next h1 =>
    simp only [storedQ]
    cases h2 : alook qt s' with
    | some m => rw [alook_append_left _ h2]
    | none =>
      rw [alook_append_right _ h2]
      by_cases hs : s = s'
      · subst hs
        by_cases ha : a = a' <;> simp [alook, ha]
      · simp [alook, hs]
  next inner h1 =>
    split
    next h2 =>
      simp only [storedQ, alook_aset]
      by_cases hs : s = s'
      · subst hs
        rw [h1]
        simp only [if_pos rfl]
        cases h3 : alook inner a' with
        | some w => simp [alook_append_left _ h3, h3]
        | none =>
          by_cases ha : a = a' <;>
            simp [alook_append_right _ h3, h3, alook, ha]
      · simp [hs]
    next v h2 => rfl

theorem getMaxQGo_spec (s : GState) (r : List Nat) :
    ∀ (m : ℚ) (qt qt0 : QTable), qtEquiv qt qt0 →
      (getMaxQGo s r m qt).1 = r.foldl (fun acc x => max acc (storedQ qt0 s x)) m
      ∧ qtEquiv (getMaxQGo s r m qt).2 qt0 := by
  induction r with
  | nil => intro m qt qt0 h; exact ⟨rfl, h⟩
  | cons a rest ih =>
    intro m qt qt0 h
    have hv : (get_q_value qt s a).1 = storedQ qt0 s a := by
      rw [get_q_value_fst]; exact h s a
    have heq : qtEquiv (get_q_value qt s a).2 qt0 :=
      qtEquiv_trans (get_q_value_equiv qt s a) h
    simp only [getMaxQGo, hv, List.foldl_cons]
    exact ih (max m (storedQ qt0 s a)) _ qt0 heq

theorem get_max_q_value_spec (qt qt0 : QTable) (s : GState) (legal : List Nat)
    (h : qtEquiv qt qt0) :
    (get_max_q_value qt s legal).1 = storedMaxQ qt0 s legal
    ∧ qtEquiv (get_max_q_value qt s legal).2 qt0 := by
  cases legal with
  | nil => exact ⟨rfl, h⟩
  | cons a rest =>
    have hv : (get_q_value qt s a).1 = storedQ qt0 s a := by
      rw [get_q_value_fst]; exact h s a
    have heq : qtEquiv (get_q_value qt s a).2 qt0 :=
      qtEquiv_trans (get_q_value_equiv qt s a) h
    simpa [get_max_q_value, storedMaxQ, hv] using getMaxQGo_spec s rest _ _ qt0 heq

theorem storedQ_writeQ (qt : QTable) (s : GState) (a : Nat) (v : ℚ) :
    storedQ (writeQ qt s a v) s a = v := by
  unfold writeQ
  cases h1 : alook qt s with
  | none =>
    simp only [storedQ]
    rw [alook_append_right _ h1]
    simp [alook]
  | some inner =>
    simp [storedQ, alook_aset]

/-- Claim C2.  The claim demands that `get_q_value` have no side effect on
the count of known states.  The source violates it: reading a never-seen
state through the nested default dict inserts it, so the count of known
states grows from 0 to 1 on a single read of the initial state. -/
theorem get_q_value_autovivifies_c2 :
    (get_q_value [] sInit 0).1 = 0
    ∧ numStates ([] : QTable) = 0
    ∧ numStates (get_q_value [] sInit 0).2 = 1 := by
  refine ⟨rfl, rfl, rfl⟩

/-- Claim C4.  `update` stores old + alpha * (target - old) where the
target is the bare reward when done and otherwise
reward + gamma * (maximum stored Q over the next legal actions, 0 when
there are none); in particular an unseen pair updated with done = true,
reward = 1 and alpha = 1/5 ends at exactly 1/5. -/
theorem bellman_update_formula_c4 :
    (∀ (alpha gamma : ℚ) (qt : QTable) (s : GState) (a : Nat) (reward : ℚ)
        (ns : GState) (nla : List Nat) (done : Bool),
      storedQ (bellman_update alpha gamma qt s a reward ns nla done) s a
        = storedQ qt s a
          + alpha * ((if done then reward else reward + gamma * storedMaxQ qt ns nla)
              - storedQ qt s a))
    ∧ storedQ (bellman_update (1/5) (99/100) [] sInit 0 1 sInit [] true) sInit 0 = 1/5 := by
  constructor
  · intro alpha gamma qt s a reward ns nla done
    unfold bellman_update
    cases done with
    | true =>
      simp only [if_pos, if_true]
      rw [storedQ_writeQ, get_q_value_fst]
    | false =>
      simp only [Bool.false_eq_true, if_false]
      have hsp := get_max_q_value_spec (get_q_value qt s a).2 qt ns nla
        (get_q_value_equiv qt s a)
      rw [storedQ_writeQ, get_q_value_fst, hsp.1]
  · with_unfolding_all decide

/-- Claim C7.  Starting from a nonnegative epsilon at least epsilon_min,
with a decay factor in (0, 1], iterated `decay_epsilon` is non-increasing
from call to call and never lies below epsilon_min. -/
theorem decay_epsilon_monotone_c7 (epsMin epsDecay e : ℚ)
    (he0 : 0 ≤ e) (hme : epsMin ≤ e) (hd0 : 0 < epsDecay) (hd1 : epsDecay ≤ 1) :
    ∀ n, decayIter epsMin epsDecay (n + 1) e ≤ decayIter epsMin epsDecay n e
      ∧ epsMin ≤ decayIter epsMin epsDecay n e := by
  intro n
  induction n generalizing e with
  | zero =>
    constructor
    · show decay_epsilon epsMin epsDecay e ≤ e
      exact max_le hme (mul_le_of_le_one_right he0 hd1)
    · exact hme
  | succ n ih =>
    have hde0 : 0 ≤ decay_epsilon epsMin epsDecay e :=
      le_trans (mul_nonneg he0 hd0.le) (le_max_right _ _)
    have hdem : epsMin ≤ decay_epsilon epsMin epsDecay e := le_max_left _ _
    have h := ih (decay_epsilon epsMin epsDecay e) hde0 hdem
    exact ⟨h.1, h.2⟩

/-- Witness for claim C7 at epsilon_min = 1/100, decay = 1/2, epsilon = 1,
two iterations. -/
theorem decay_epsilon_monotone_c7_witness :
    (0 : ℚ) ≤ 1 ∧ (1 : ℚ)/100 ≤ 1 ∧ (0 : ℚ) < 1/2 ∧ (1 : ℚ)/2 ≤ 1
    ∧ decayIter (1/100) (1/2) 3 1 ≤ decayIter (1/100) (1/2) 2 1
    ∧ (1 : ℚ)/100 ≤ decayIter (1/100) (1/2) 2 1 := by
  refine ⟨by norm_num, by norm_num, by norm_num, by norm_num, ?_, ?_⟩
  · exact (decay_epsilon_monotone_c7 (1/100) (1/2) 1 (by norm_num) (by norm_num)
      (by norm_num) (by norm_num) 2).1
  · exact (decay_epsilon_monotone_c7 (1/100) (1/2) 1 (by norm_num) (by norm_num)
      (by norm_num) (by norm_num) 2).2

/-- Counterexample to claim C3: an agent with epsilon_min = 1/100 and
epsilon = 1/2 satisfies the claimed invariant, yet the public operation
`set_epsilon 0` (which only clamps into [0, 1]) drops epsilon to 0,
strictly below epsilon_min. -/
theorem set_epsilon_invariant_c3_cex :
    (1 : ℚ)/100 ≤ 1/2 ∧ (1 : ℚ)/2 ≤ 1 ∧ set_epsilon 0 = 0
    ∧ ¬ ((1 : ℚ)/100 ≤ set_epsilon 0) := by
  refine ⟨by norm_num, by norm_num, by with_unfolding_all decide, by with_unfolding_all decide⟩

/-- Claim C3 as amended: `set_epsilon` clamps into [0, 1], so the weaker
invariant 0 ≤ epsilon ≤ 1 is what every public operation preserves;
`decay_epsilon` keeps epsilon in [0, 1] whenever epsilon_min and the decay
factor lie in [0, 1]; and `Trainer.evaluate` restores the original epsilon
exactly whenever it lay in [0, 1]. -/
theorem epsilon_bounds_c3_amended :
    (∀ x : ℚ, 0 ≤ set_epsilon x ∧ set_epsilon x ≤ 1)
    ∧ (∀ epsMin epsDecay e : ℚ, 0 ≤ epsMin → epsMin ≤ 1 → 0 ≤ epsDecay →
        epsDecay ≤ 1 → 0 ≤ e → e ≤ 1 →
        0 ≤ decay_epsilon epsMin epsDecay e ∧ decay_epsilon epsMin epsDecay e ≤ 1)
    ∧ (∀ orig evalEps : ℚ, 0 ≤ orig → orig ≤ 1 → (evalEpsTrace orig evalEps).2 = orig) := by
  refine ⟨?_, ?_, ?_⟩
  · intro x
    refine ⟨le_max_left _ _, max_le (by norm_num) (min_le_left _ _)⟩
  · intro epsMin epsDecay e hm0 hm1 hd0 hd1 he0 he1
    constructor
    · exact le_trans hm0 (le_max_left _ _)
    · refine max_le hm1 ?_
      nlinarith
  · intro orig evalEps h0 h1
    show set_epsilon orig = orig
    unfold set_epsilon
    rw [min_eq_right h1, max_eq_right h0]

/-- Witness for the amended claim C3 at concrete values. -/
theorem epsilon_bounds_c3_amended_witness :
    (0 ≤ set_epsilon (3/4) ∧ set_epsilon ((3 : ℚ)/4) ≤ 1)
    ∧ (0 ≤ decay_epsilon (1/100) (1/2) (3/4)
        ∧ decay_epsilon ((1 : ℚ)/100) (1/2) (3/4) ≤ 1)
    ∧ (evalEpsTrace ((3 : ℚ)/4) 0).2 = 3/4 := by
  refine ⟨epsilon_bounds_c3_amended.1 (3/4), ?_, ?_⟩
  · exact epsilon_bounds_c3_amended.2.1 (1/100) (1/2) (3/4) (by norm_num) (by norm_num)
      (by norm_num) (by norm_num) (by norm_num) (by norm_num)
  · exact epsilon_bounds_c3_amended.2.2 (3/4) 0 (by norm_num) (by norm_num)

/-! The training episode loop, from `rl_logic/trainer.py`.  The random
draws of `random.random` and `random.choice` are supplied as oracles: a
stream of coin values (compared against epsilon exactly as the source's
`random.random() < epsilon`), an exploration chooser, a tie-break chooser
for `get_best_action`, and the random opponent's chooser, each indexed by
the move count at the time of the draw. -/

/-- Worker computing the `q_values` list of `QLearningAgent.get_best_action`:
reads (and so autovivifies) the Q-value of every legal action in order. -/
def qValuesGo (s : GState) : List Nat → QTable → List (Nat × ℚ) × QTable
  | [], qt => ([], qt)
  | a :: r, qt =>
    let p := get_q_value qt s a
    let rest := qValuesGo s r p.2
    ((a, p.1) :: rest.1, rest.2)

/-- The maximum value in a `q_values` list (the source's
`max(q_values, key=...)`, then the value component; the caller guarantees
a nonempty list, 0 is a dead default). -/
def listMaxQ : List (Nat × ℚ) → ℚ
  | [] => 0
  | p :: r => r.foldl (fun m q => max m q.2) p.2

/-- Embedding of `QLearningAgent.get_best_action`: compute all Q-values,
keep the actions whose value is the maximum, and let the tie-break oracle
choose among them (the source picks uniformly at random).  The source
raises on an empty action list; callers guarantee nonemptiness. -/
def get_best_action (tie : List Nat → Nat) (qt : QTable) (s : GState)
    (legal : List Nat) : Nat × QTable :=
  let qv := qValuesGo s legal qt
  let best := (qv.1.filter (fun p => decide (p.2 = listMaxQ qv.1))).map (fun p => p.1)
  (tie best, qv.2)

/-- Embedding of `QLearningAgent.choose_action`: explore (oracle choice
among the legal actions) when the coin value is below epsilon, otherwise
exploit through `get_best_action`. -/
def choose_action (coinv : ℚ) (explorePick tiePick : List Nat → Nat) (eps : ℚ)
    (qt : QTable) (s : GState) (legal : List Nat) : Nat × QTable :=
  if coinv < eps then (explorePick legal, qt)
  else get_best_action tiePick qt s legal

/-- Oracle bundle for one episode, indexed by the move count. -/
structure EpisodeOracles where
  coin : Nat → ℚ
  explorePick : Nat → List Nat → Nat
  tiePick : Nat → List Nat → Nat
  oppPick : Nat → List Nat → Nat

/-- One recorded call to `QLearningAgent.update` during an episode:
state, action, reward, next state and done flag, in call order. -/
structure UpdateCall where
  us : GState
  ua : Nat
  ur : ℚ
  uns : GState
  udone : Bool
deriving DecidableEq

/-- The outcome of one episode: the final Q-table, the update calls in
order, the winner, and the move count. -/
structure EpisodeResult where
  qt : QTable
  trace : List UpdateCall
  winner : Option Int
  numMoves : Nat
deriving DecidableEq

/-- The body of the while loop of `Trainer.play_episode`: the agent moves
(remembering its (state, action) for the deferred update; an immediately
terminal agent move is updated with the environment's own reward), then,
if the game goes on, the opponent moves and the deferred update is applied
with the translated reward -- note the source tests `opponent_reward > 0`
before `opponent_reward == 0.5`, so the first branch also catches a draw.
Fuel bounds the iteration count; nine suffices from the empty board.
Returns `none` on an illegal oracle move or fuel exhaustion, which the
source cannot reach (it would raise instead). -/
def playEpisodeLoop (upd : Bool) (eps alpha gamma : ℚ) (orac : EpisodeOracles) :
    Nat → EnvSt → QTable → List UpdateCall → Nat → Option EpisodeResult
  | 0, _, _, _, _ => none
  | fuel + 1, env, qt, tr, nm =>
    let s := get_state env
    let legal := legal_actions env.board
    let pa := choose_action (orac.coin nm) (orac.explorePick nm) (orac.tiePick nm)
      eps qt s legal
    if pa.1 ∈ legal then
      let st1 := apply_action env pa.1
      let ns := get_state st1.1
      if st1.2.2 then
        let qt2 := if upd then
            bellman_update alpha gamma pa.2 s pa.1 st1.2.1 ns
              (legal_actions st1.1.board) true
          else pa.2
        let tr2 := if upd then tr ++ [⟨s, pa.1, st1.2.1, ns, true⟩] else tr
        some ⟨qt2, tr2, get_winner st1.1, nm + 1⟩
      else
        let legal2 := legal_actions st1.1.board
        let oa := orac.oppPick (nm + 1) legal2
        if oa ∈ legal2 then
          let st2 := apply_action st1.1 oa
          let s3 := get_state st2.1
          let finalReward : ℚ :=
            if st2.2.2 = true ∧ 0 < st2.2.1 then -1
            else if st2.2.2 = true ∧ st2.2.1 = 1/2 then 1/2
            else 0
          let qt3 := if upd then
              bellman_update alpha gamma pa.2 s pa.1 finalReward s3
                (legal_actions st2.1.board) st2.2.2
            else pa.2
          let tr3 := if upd then tr ++ [⟨s, pa.1, finalReward, s3, st2.2.2⟩] else tr
          if st2.2.2 then some ⟨qt3, tr3, get_winner st2.1, nm + 2⟩
          else playEpisodeLoop upd eps alpha gamma orac fuel st2.1 qt3 tr3 (nm + 2)
        else none
    else none

/-- Embedding of `Trainer.play_episode`: when the agent does not start the
opponent plays one move first, then the alternating loop runs.  The agent
enters with Q-table `qt0` and exploration rate `eps`. -/
def play_episode (upd agentStarts : Bool) (eps alpha gamma : ℚ)
    (orac : EpisodeOracles) (qt0 : QTable) : Option EpisodeResult :=
  if agentStarts then
    playEpisodeLoop upd eps alpha gamma orac 9 envReset qt0 [] 0
  else
    let legal := legal_actions envReset.board
    let oa := orac.oppPick 0 legal
    if oa ∈ legal then
      let st := apply_action envReset oa
      if st.2.2 then some ⟨qt0, [], get_winner st.1, 1⟩
      else playEpisodeLoop upd eps alpha gamma orac 9 st.1 qt0 [] 1
    else none

/-- A deterministic move chooser: the first available action in the fixed
priority order 0, 1, 2, 4, 3, 5, 7, 6, 8 (a play-out in which both sides
follow this order from the empty board ends in a draw). -/
def prioPick (legal : List Nat) : Nat :=
  (([0, 1, 2, 4, 3, 5, 7, 6, 8] : List Nat).find? (fun x => decide (x ∈ legal))).getD 0

/-- Oracles for the claim C1 run: with epsilon 1 the coin value 1/2 always
explores, and every chooser follows the draw priority order. -/
def c1Oracles : EpisodeOracles :=
  ⟨fun _ => 1/2, fun _ => prioPick, fun _ => prioPick, fun _ => prioPick⟩

/-- Oracles for the claim C6 run: with epsilon 0 the coin value 1/2 never
explores (the source draws from [0, 1)); ties break to the first best
action; the opponent follows the draw priority order. -/
def c6Oracles : EpisodeOracles :=
  ⟨fun _ => 1/2, fun _ => prioPick, fun _ l => l.headD 0, fun _ => prioPick⟩

/-- Claim C1 (the code diverges).  With updates enabled and the opponent
moving first, a fully played-out drawn game ends on the opponent's ninth
move; the source then applies the deferred update with translated reward
-1 -- its `opponent_reward > 0` test also catches the draw reward 1/2 and
shadows the `== 0.5` branch -- instead of the +1/2 the claim states.  The
recorded update rewards of this episode are 0, 0, 0, -1 although it is a
draw (no winner, nine moves). -/
theorem play_episode_draw_reward_c1 :
    (play_episode true false 1 (1/5) (99/100) c1Oracles []).map
      (fun r => (r.winner, r.numMoves, r.trace.map (fun u => u.ur),
        r.trace.map (fun u => u.udone)))
    = some (none, 9, [0, 0, 0, -1], [false, false, false, true]) := by
  with_unfolding_all decide

/-- Claim C6 (the code diverges on the Q-table part).  An evaluation
episode (updates disabled, epsilon 0) on a fresh agent makes no update
call, and the epsilon bookkeeping of `Trainer.evaluate` restores the
original epsilon exactly; yet the Q-table does not stay identical: the
exploitation reads of `get_best_action` autovivify every state the agent
faces, so the known-state count grows from 0 to 4 during one game (which
the agent, moving first, wins). -/
theorem evaluate_qtable_growth_c6 :
    (play_episode false true 0 (1/5) (99/100) c6Oracles []).map
      (fun r => (r.trace.length, numStates r.qt, r.winner))
    = some (0, 4, some 1)
    ∧ evalEpsTrace (1/2) 0 = (0, 1/2) := by
  constructor
  · with_unfolding_all decide
  · with_unfolding_all decide

/-! Elo rating system, from `rl_logic/elo_system.py`.  Ratings are real
numbers (the source's floats); model names are opaque identifiers,
rendered as naturals. -/

/-- The state of `ELOSystem`: the K-factor, the initial rating handed to
unseen names, and the rating table. -/
structure EloState where
  kFactor : ℝ
  initialRating : ℝ
  ratings : Nat → Option ℝ

/-- Embedding of `ELOSystem.get_rating`: the stored rating, or the
initial rating for a name that was never rated. -/
def get_rating (st : EloState) (n : Nat) : ℝ := (st.ratings n).getD st.initialRating

/-- Embedding of `ELOSystem.expected_score`. -/
noncomputable def expected_score (ra rb : ℝ) : ℝ :=
  1 / (1 + (10 : ℝ) ^ ((rb - ra) / 400))

/-- Embedding of `ELOSystem.update_ratings`: read both pre-update ratings,
compute both expected scores and both new ratings from those same reads,
then write both back (the write for the second name happens second). -/
noncomputable def update_ratings (st : EloState) (a b : Nat) (scoreA scoreB : ℝ) :
    (ℝ × ℝ) × EloState :=
  let ra := get_rating st a
  let rb := get_rating st b
  let ea := expected_score ra rb
  let eb := expected_score rb ra
  let na := ra + st.kFactor * (scoreA - ea)
  let nb := rb + st.kFactor * (scoreB - eb)
  ((na, nb),
   ⟨st.kFactor, st.initialRating,
    fun x => if x = b then some nb else if x = a then some na else st.ratings x⟩)

/-- A fresh Elo system with the source's defaults: K = 32, initial rating
1500, empty rating table. -/
noncomputable def elo0 : EloState := ⟨32, 1500, fun _ => none⟩

theorem expected_score_add_symm (ra rb : ℝ) :
    expected_score ra rb + expected_score rb ra = 1 := by
  unfold expected_score
  have h1 : (ra - rb) / 400 = -((rb - ra) / 400) := by ring
  rw [h1, Real.rpow_neg (by norm_num : (0 : ℝ) ≤ 10)]
  set t := (10 : ℝ) ^ ((rb - ra) / 400) with ht
  have htpos : 0 < t := Real.rpow_pos_of_pos (by norm_num) _
  have h2 : (1 : ℝ) + t ≠ 0 := by positivity
  have h3 : (1 : ℝ) + t⁻¹ ≠ 0 := by positivity
  field_simp
  ring

/-- Claim C5.  `update_ratings` computes both new ratings from the same
pre-update ratings via new = old + K * (score - expected); whenever the
two scores sum to 1 the two rating changes are exactly opposite
(zero-sum), and from a fresh system (both ratings 1500, K = 32) with
scores (1, 0) the returned new ratings are exactly (1516, 1484). -/
theorem update_ratings_zero_sum_c5 :
    (∀ (st : EloState) (a b : Nat) (scoreA scoreB : ℝ), scoreA + scoreB = 1 →
      (update_ratings st a b scoreA scoreB).1.1 - get_rating st a
        = -((update_ratings st a b scoreA scoreB).1.2 - get_rating st b))
    ∧ (update_ratings elo0 0 1 1 0).1 = (1516, 1484) := by
  constructor
  · intro st a b sa sb hsum
    have h := expected_score_add_symm (get_rating st a) (get_rating st b)
    show get_rating st a
        + st.kFactor * (sa - expected_score (get_rating st a) (get_rating st b))
        - get_rating st a
      = -(get_rating st b
          + st.kFactor * (sb - expected_score (get_rating st b) (get_rating st a))
          - get_rating st b)
    have h2 : sa - expected_score (get_rating st a) (get_rating st b)
        = -(sb - expected_score (get_rating st b) (get_rating st a)) := by linarith
    rw [show get_rating st a
          + st.kFactor * (sa - expected_score (get_rating st a) (get_rating st b))
          - get_rating st a
        = st.kFactor * (sa - expected_score (get_rating st a) (get_rating st b)) from by ring,
      h2]
    ring
  · have hz : ((1500 : ℝ) - 1500) / 400 = 0 := by norm_num
    have he : expected_score 1500 1500 = 1/2 := by
      unfold expected_score
      rw [hz, Real.rpow_zero]
      norm_num
    show ((1500 : ℝ) + 32 * (1 - expected_score 1500 1500),
          (1500 : ℝ) + 32 * (0 - expected_score 1500 1500)) = (1516, 1484)
    rw [he]
    norm_num

/-- Witness for claim C5: the zero-sum identity applied at the fresh
system, names 0 and 1, scores 1 and 0. -/
theorem update_ratings_zero_sum_c5_witness :
    (1 : ℝ) + 0 = 1
    ∧ (update_ratings elo0 0 1 1 0).1.1 - get_rating elo0 0
        = -((update_ratings elo0 0 1 1 0).1.2 - get_rating elo0 1) := by
  refine ⟨by norm_num, ?_⟩
  exact update_ratings_zero_sum_c5.1 elo0 0 1 1 0 (by norm_num)

/-! Tournament play, from `rl_logic/tournament.py`.  Tournament agents act
with `epsilon=0.0`; an agent is modelled as a deterministic move policy
(the resolution of its `choose_action(state, legal, epsilon=0.0)`,
tie-breaks included); participant names are opaque identifiers, rendered
as naturals. -/

/-- A tournament agent: a move policy over (state, legal actions). -/
abbrev Policy := GState → List Nat → Nat

/-- The while loop of `Tournament.play_match` for one game: the current
agent picks a move (checked against the legal actions: an illegal pick
would raise in the source, modelled as `none`), the move is applied, and
the two agents swap whenever the game goes on. -/
def playLoop (cur oth : Policy) : Nat → EnvSt → Option EnvSt
  | 0, _ => none
  | fuel + 1, env =>
    let legal := legal_actions env.board
    let a := cur (get_state env) legal
    if a ∈ legal then
      let st := apply_action env a
      if st.2.2 then some st.1
      else playLoop oth cur fuel st.1
    else none

/-- One tournament game: agent 1 starts iff `p1Starts`; returns the winner
(`some 1` for X, `some (-1)` for O, `none` for a draw). -/
def playOne (p1 p2 : Policy) (p1Starts : Bool) : Option (Option Int) :=
  if p1Starts then (playLoop p1 p2 9 envReset).map get_winner
  else (playLoop p2 p1 9 envReset).map get_winner

/-- The per-match tallies of `play_match`: games won by each side, draws. -/
structure MatchRes where
  wins1 : Nat
  wins2 : Nat
  draws : Nat
deriving DecidableEq

/-- Tally one game's outcome from agent 1's perspective (`sym1` is agent
1's symbol in that game). -/
def tally (acc : MatchRes) (w : Option Int) (sym1 : Int) : MatchRes :=
  if w = some sym1 then ⟨acc.wins1 + 1, acc.wins2, acc.draws⟩
  else if w = none then ⟨acc.wins1, acc.wins2, acc.draws + 1⟩
  else ⟨acc.wins1, acc.wins2 + 1, acc.draws⟩

/-- Worker of `play_match` over the remaining game indices. -/
def playMatchGo (p1 p2 : Policy) : List Nat → MatchRes → Option MatchRes
  | [], acc => some acc
  | g :: gs, acc =>
    match playOne p1 p2 (g % 2 == 0) with
    | none => none
    | some w => playMatchGo p1 p2 gs (tally acc w (if g % 2 == 0 then 1 else -1))

/-- Embedding of `Tournament.play_match`: `n` games, agent 1 starting the
even-indexed ones, tallying wins and draws from agent 1's perspective. -/
def play_match (p1 p2 : Policy) (n : Nat) : Option MatchRes :=
  playMatchGo p1 p2 (List.range n) ⟨0, 0, 0⟩

/-- The winner determination for one pairing of `elimination_bracket`:
the agent with more match wins advances; on an exact tie one supplementary
sudden-death game (one game) is played, and agent 1 advances exactly when
`wins_agent1 > 0` in it, agent 2 otherwise. -/
def pairWinner (p1 p2 : Policy) (n1 n2 : Nat) (gpm : Nat) : Option Nat :=
  match play_match p1 p2 gpm with
  | none => none
  | some r =>
    if r.wins2 < r.wins1 then some n1
    else if r.wins1 < r.wins2 then some n2
    else
      match play_match p1 p2 1 with
      | none => none
      | some t => some (if 0 < t.wins1 then n1 else n2)

/-- The draw policy: following the priority order of `prioPick` on both
sides draws every game. -/
def drawPol : Policy := fun _ legal => prioPick legal

theorem tally_sum (acc : MatchRes) (w : Option Int) (sym1 : Int) :
    (tally acc w sym1).wins1 + (tally acc w sym1).wins2 + (tally acc w sym1).draws
      = acc.wins1 + acc.wins2 + acc.draws + 1 := by
  unfold tally
  split_ifs <;> simp <;> omega

theorem playMatchGo_total (p1 p2 : Policy) :
    ∀ (gs : List Nat) (acc r : MatchRes), playMatchGo p1 p2 gs acc = some r →
      r.wins1 + r.wins2 + r.draws
        = acc.wins1 + acc.wins2 + acc.draws + gs.length := by
  intro gs
  induction gs with
  | nil =>
    intro acc r h
    simp only [playMatchGo, Option.some_inj] at h
    subst h
    simp
  | cons g gs ih =>
    intro acc r h
    unfold playMatchGo at h
    cases hw : playOne p1 p2 (g % 2 == 0) with
    | none => rw [hw] at h; exact absurd h (by simp)
    | some w =>
      rw [hw] at h
      have := ih _ r h
      rw [tally_sum] at this
      simp only [List.length_cons]
      omega

/-- Counterexample to claim C10 as stated: two copies of the draw policy
tie their two-game match 0-0, the single supplementary sudden-death game
is played and is itself a draw (tallies 0, 0, 1) -- neither agent wins
it -- yet agent 2 advances from the pairing. -/
theorem sudden_death_c10_cex :
    play_match drawPol drawPol 2 = some ⟨0, 0, 2⟩
    ∧ play_match drawPol drawPol 1 = some ⟨0, 0, 1⟩
    ∧ pairWinner drawPol drawPol 1 2 2 = some 2 := by
  refine ⟨by with_unfolding_all decide, by with_unfolding_all decide,
    by with_unfolding_all decide⟩

/-- Claim C10 as amended.  When the `games_per_match` games end with both
agents on an exactly equal win count, exactly one supplementary
sudden-death game is played (its tallies sum to 1), and agent 1 advances
exactly when it won that game; otherwise -- a supplementary win by agent
2, or a supplementary draw, which the claim overlooks -- agent 2
advances. -/
theorem sudden_death_c10_amended (p1 p2 : Policy) (n1 n2 : Nat) (gpm : Nat)
    (r t : MatchRes) (hm : play_match p1 p2 gpm = some r)
    (heq : r.wins1 = r.wins2) (ht : play_match p1 p2 1 = some t) :
    pairWinner p1 p2 n1 n2 gpm = some (if 0 < t.wins1 then n1 else n2)
    ∧ t.wins1 + t.wins2 + t.draws = 1 := by
  constructor
  · unfold pairWinner
    rw [hm]
    simp only [heq, lt_self_iff_false, if_false]
    rw [ht]
  · have := playMatchGo_total p1 p2 (List.range 1) ⟨0, 0, 0⟩ t ht
    simpa using this

/-- Witness for the amended claim C10 at the concrete drawn pairing of
two copies of the draw policy. -/
theorem sudden_death_c10_amended_witness :
    pairWinner drawPol drawPol 1 2 2
      = some (if 0 < (MatchRes.mk 0 0 1).wins1 then 1 else 2)
    ∧ (MatchRes.mk 0 0 1).wins1 + (MatchRes.mk 0 0 1).wins2
        + (MatchRes.mk 0 0 1).draws = 1 :=
  sudden_death_c10_amended drawPol drawPol 1 2 2 ⟨0, 0, 2⟩ ⟨0, 0, 1⟩
    (by with_unfolding_all decide) rfl (by with_unfolding_all decide)

/-! The elimination bracket of `Tournament.elimination_bracket`. -/

/-- One round: adjacent pairs play (the advancing player of a pairing is
given by `adv`), and a leftover player advances as a bye. -/
def elimRound (adv : Nat → Nat → Nat) : List Nat → List Nat
  | [] => []
  | [x] => [x]
  | a :: b :: rest => adv a b :: elimRound adv rest

/-- The number of byes handed out in one round (the leftover branch). -/
def elimRoundByes : List Nat → Nat
  | [] => 0
  | [_] => 1
  | _ :: _ :: rest => elimRoundByes rest

/-- The while loop of `elimination_bracket`, with fuel: rounds are played
until at most one player remains; returns (remaining players, rounds
played).  Fuel `l.length` always suffices (claim C9). -/
def elimLoopF (adv : Nat → Nat → Nat) : Nat → List Nat → List Nat × Nat
  | 0, l => (l, 0)
  | fuel + 1, l =>
    if l.length ≤ 1 then (l, 0)
    else
      let p := elimLoopF adv fuel (elimRound adv l)
      (p.1, p.2 + 1)

/-- Embedding of `Tournament.elimination_bracket` over an abstract pairing
winner `adv` (in the source each pairing advances one of its two players,
through the match and its sudden death, as in `pairWinner`). -/
def elimination_bracket (adv : Nat → Nat → Nat) (l : List Nat) : List Nat × Nat :=
  elimLoopF adv l.length l

theorem elimRound_length (adv : Nat → Nat → Nat) :
    ∀ l : List Nat, (elimRound adv l).length = (l.length + 1) / 2
  | [] => by simp [elimRound]
  | [_] => by simp [elimRound]
  | a :: b :: rest => by
    simp only [elimRound, List.length_cons, elimRound_length adv rest]
    omega

theorem elimRound_mem (adv : Nat → Nat → Nat)
    (hadv : ∀ a b, adv a b = a ∨ adv a b = b) :
    ∀ (l : List Nat) (x : Nat), x ∈ elimRound adv l → x ∈ l
  | [], x, hx => by simp [elimRound] at hx
  | [y], x, hx => by simpa [elimRound] using hx
  | a :: b :: rest, x, hx => by
    simp only [elimRound, List.mem_cons] at hx ⊢
    rcases hx with hx | hx
    · rcases hadv a b with h | h
      · exact Or.inl (by rw [← h, hx])
      · exact Or.inr (Or.inl (by rw [← h, hx]))
    · exact Or.inr (Or.inr (elimRound_mem adv hadv rest x hx))

theorem elimLoopF_spec (adv : Nat → Nat → Nat)
    (hadv : ∀ a b, adv a b = a ∨ adv a b = b) :
    ∀ (fuel : Nat) (l : List Nat), 1 ≤ l.length → l.length ≤ fuel + 1 →
      (elimLoopF adv fuel l).1.length = 1
      ∧ (∀ x ∈ (elimLoopF adv fuel l).1, x ∈ l)
      ∧ (elimLoopF adv fuel l).2 ≤ Nat.clog 2 l.length := by
  intro fuel
  induction fuel with
  | zero =>
    intro l h1 h2
    have hl : l.length = 1 := le_antisymm h2 h1
    exact ⟨hl, fun x hx => hx, by simp [elimLoopF]⟩
  | succ fuel ih =>
    intro l h1 h2
    by_cases hle : l.length ≤ 1
    · have hl : l.length = 1 := le_antisymm hle h1
      simp only [elimLoopF, if_pos hle]
      exact ⟨hl, fun x hx => hx, by simp⟩
    · push_neg at hle
      have hlen : (elimRound adv l).length = (l.length + 1) / 2 :=
        elimRound_length adv l
      have h1' : 1 ≤ (elimRound adv l).length := by omega
      have h2' : (elimRound adv l).length ≤ fuel + 1 := by omega
      have hspec := ih (elimRound adv l) h1' h2'
      have harith : l.length + 2 - 1 = l.length + 1 := by omega
      have hclog : Nat.clog 2 l.length = Nat.clog 2 ((l.length + 1) / 2) + 1 := by
        rw [Nat.clog_of_two_le (by norm_num) hle, harith]
      simp only [elimLoopF, if_neg (not_le.mpr hle)]
      refine ⟨hspec.1, ?_, ?_⟩
      · intro x hx
        exact elimRound_mem adv hadv l x (hspec.2.1 x hx)
      · have h22 := hspec.2.2
        rw [hclog, ← hlen]
        omega

/-- Claim C9.  For every nonempty participant list and every pairing
winner that advances one of its two players, the bracket terminates with
exactly one remaining player (the champion), the champion is one of the
participants, and the number of rounds played is at most the ceiling of
log2 of the participant count; concretely, a five-participant field has
exactly one bye in round 1 and produces its champion in exactly
3 = ceil(log2 5) rounds. -/
theorem elimination_bracket_c9 :
    (∀ (l : List Nat) (adv : Nat → Nat → Nat), l ≠ [] →
        (∀ a b, adv a b = a ∨ adv a b = b) →
        (elimination_bracket adv l).1.length = 1
        ∧ (∀ x ∈ (elimination_bracket adv l).1, x ∈ l)
        ∧ (elimination_bracket adv l).2 ≤ Nat.clog 2 l.length)
    ∧ elimRoundByes [1, 2, 3, 4, 5] = 1
    ∧ (elimination_bracket (fun a _ => a) [1, 2, 3, 4, 5]).2 = 3
    ∧ Nat.clog 2 5 = 3 := by
  have h5 : Nat.clog 2 5 = 3 := by
    rw [Nat.clog_of_two_le (by norm_num) (by norm_num)]
    norm_num
    rw [Nat.clog_of_two_le (by norm_num) (by norm_num)]
    norm_num
    rw [Nat.clog_eq_one (by norm_num) (by norm_num)]
  refine ⟨?_, by decide, by decide, h5⟩
  intro l adv hne hadv
  have h1 : 1 ≤ l.length := List.length_pos.mpr hne
  exact elimLoopF_spec adv hadv l.length l h1 (by omega)

/-- Witness for claim C9 at the concrete five-participant field with the
first-player-advances pairing winner. -/
theorem elimination_bracket_c9_witness :
    ([1, 2, 3, 4, 5] : List Nat) ≠ []
    ∧ (elimination_bracket (fun a _ => a) [1, 2, 3, 4, 5]).1.length = 1
    ∧ (elimination_bracket (fun a _ => a) [1, 2, 3, 4, 5]).2
        ≤ Nat.clog 2 ([1, 2, 3, 4, 5] : List Nat).length := by
  refine ⟨by decide, ?_, ?_⟩
  · exact (elimination_bracket_c9.1 [1, 2, 3, 4, 5] (fun a _ => a) (by decide)
      (fun a b => Or.inl rfl)).1
  · exact (elimination_bracket_c9.1 [1, 2, 3, 4, 5] (fun a _ => a) (by decide)
      (fun a b => Or.inl rfl)).2.2

/-! The round-robin tournament of `Tournament.round_robin`. -/

/-- One participant's standings row. -/
structure Standing where
  wins : Nat
  draws : Nat
  losses : Nat
  points : Nat
deriving DecidableEq

/-- The unordered pairs of the source's nested loop:
`(names[i], names[j])` for `i < j`, in loop order. -/
def rrPairs : List Nat → List (Nat × Nat)
  | [] => []
  | x :: xs => xs.map (fun y => (x, y)) ++ rrPairs xs

/-- Update of one standings-table row. -/
def updStanding (st : Nat → Standing) (n : Nat) (f : Standing → Standing) :
    Nat → Standing :=
  fun x => if x = n then f (st x) else st x

/-- Standings update after one match between `n1` and `n2`: the side with
more game wins takes a match win and 3 points, the other a loss; a drawn
match gives each side one draw and 1 point. -/
def applyOutcome (st : Nat → Standing) (n1 n2 : Nat) (r : MatchRes) :
    Nat → Standing :=
  if r.wins2 < r.wins1 then
    updStanding
      (updStanding st n1 (fun s => ⟨s.wins + 1, s.draws, s.losses, s.points + 3⟩))
      n2 (fun s => ⟨s.wins, s.draws, s.losses + 1, s.points⟩)
  else if r.wins1 < r.wins2 then
    updStanding
      (updStanding st n1 (fun s => ⟨s.wins, s.draws, s.losses + 1, s.points⟩))
      n2 (fun s => ⟨s.wins + 1, s.draws, s.losses, s.points + 3⟩)
  else
    updStanding
      (updStanding st n1 (fun s => ⟨s.wins, s.draws + 1, s.losses, s.points + 1⟩))
      n2 (fun s => ⟨s.wins, s.draws + 1, s.losses, s.points + 1⟩)

/-- Worker of `round_robin` over the pair list, threading the standings
and accumulating the match results in loop order. -/
def roundRobinGo (agents : Nat → Policy) (gpm : Nat) :
    List (Nat × Nat) → (Nat → Standing) → List MatchRes →
    Option ((Nat → Standing) × List MatchRes)
  | [], st, acc => some (st, acc)
  | p :: ps, st, acc =>
    match play_match (agents p.1) (agents p.2) gpm with
    | none => none
    | some r => roundRobinGo agents gpm ps (applyOutcome st p.1 p.2 r) (acc ++ [r])

/-- Embedding of `Tournament.round_robin` (standings and match list; the
Elo side updates are the separate `update_ratings`): every unordered pair
of names plays exactly one match of `gpm` games. -/
def round_robin (names : List Nat) (agents : Nat → Policy) (gpm : Nat) :
    Option ((Nat → Standing) × List MatchRes) :=
  roundRobinGo agents gpm (rrPairs names) (fun _ => ⟨0, 0, 0, 0⟩) []

/-- The sort key of the final ranking: (points, wins). -/
def rankKey (e : Nat × Standing) : Nat × Nat := (e.2.points, e.2.wins)

/-- The descending (points, wins) order of the final ranking. -/
def rankGe (a b : Nat × Standing) : Prop :=
  (rankKey b).1 < (rankKey a).1
  ∨ ((rankKey b).1 = (rankKey a).1 ∧ (rankKey b).2 ≤ (rankKey a).2)

instance : DecidableRel rankGe := fun a b => by unfold rankGe; infer_instance

instance : IsTotal (Nat × Standing) rankGe := ⟨by
  intro a b
  unfold rankGe
  omega⟩

instance : IsTrans (Nat × Standing) rankGe := ⟨by
  intro a b c hab hbc
  unfold rankGe at hab hbc ⊢
  omega⟩

/-- The final ranking: the (name, standings) rows sorted descending by
(points, wins) (the source's `sorted(..., key=(points, wins),
reverse=True)`). -/
def rankings (names : List Nat) (st : Nat → Standing) : List (Nat × Standing) :=
  List.insertionSort rankGe (names.map (fun n => (n, st n)))

/-- Occurrence count of a name in a name list. -/
def occCount (x : Nat) : List Nat → Nat
  | [] => 0
  | y :: r => (if y = x then 1 else 0) + occCount x r

/-- How many pairs of a pair list mention a given name. -/
def pairCount (x : Nat) : List (Nat × Nat) → Nat
  | [] => 0
  | p :: r => (if p.1 = x ∨ p.2 = x then 1 else 0) + pairCount x r

/-- Total of a standings row's match tallies. -/
def sumWDL (s : Standing) : Nat := s.wins + s.draws + s.losses

theorem updStanding_apply (st : Nat → Standing) (n : Nat) (f : Standing → Standing)
    (x : Nat) : updStanding st n f x = if x = n then f (st x) else st x := rfl

theorem occCount_eq_zero {x : Nat} : ∀ {l : List Nat}, x ∉ l → occCount x l = 0
  | [], _ => rfl
  | y :: r, h => by
    have hy : ¬ y = x := fun hxy => h (by simp [hxy])
    have hr : x ∉ r := fun hm => h (List.mem_cons_of_mem _ hm)
    simp [occCount, hy, occCount_eq_zero hr]

theorem occCount_eq_one {x : Nat} : ∀ {l : List Nat}, l.Nodup → x ∈ l → occCount x l = 1
  | [], _, hm => absurd hm (by simp)
  | y :: r, hnd, hm => by
    rcases List.nodup_cons.mp hnd with ⟨hy, hr⟩
    by_cases hxy : y = x
    · subst hxy
      simp [occCount, occCount_eq_zero hy]
    · have hmr : x ∈ r := by
        rcases List.mem_cons.mp hm with h | h
        · exact absurd h.symm hxy
        · exact h
      simp [occCount, hxy, occCount_eq_one hr hmr]

theorem pairCount_append (x : Nat) (l1 l2 : List (Nat × Nat)) :
    pairCount x (l1 ++ l2) = pairCount x l1 + pairCount x l2 := by
  induction l1 with
  | nil => simp [pairCount]
  | cons p r ih => simp [pairCount, ih]; omega

theorem pairCount_map (x x0 : Nat) (xs : List Nat) :
    pairCount x (xs.map (fun y => (x0, y)))
      = if x0 = x then xs.length else occCount x xs := by
  induction xs with
  | nil => simp [pairCount, occCount]
  | cons y r ih =>
    simp only [List.map_cons, pairCount, ih, occCount, List.length_cons]
    by_cases h0 : x0 = x <;> by_cases hy : y = x <;> simp [h0, hy] <;> omega

theorem pairCount_rrPairs_notmem {x : Nat} :
    ∀ {l : List Nat}, x ∉ l → pairCount x (rrPairs l) = 0
  | [], _ => rfl
  | y :: r, h => by
    have hy : ¬ y = x := fun hxy => h (by simp [hxy])
    have hr : x ∉ r := fun hm => h (List.mem_cons_of_mem _ hm)
    simp [rrPairs, pairCount_append, pairCount_map, hy,
      occCount_eq_zero hr, pairCount_rrPairs_notmem hr]

theorem pairCount_rrPairs {x : Nat} :
    ∀ {l : List Nat}, l.Nodup → x ∈ l → pairCount x (rrPairs l) = l.length - 1
  | [], _, hm => absurd hm (by simp)
  | y :: r, hnd, hm => by
    rcases List.nodup_cons.mp hnd with ⟨hy, hr⟩
    simp only [rrPairs, pairCount_append, pairCount_map, List.length_cons]
    by_cases hxy : y = x
    · have hnx : x ∉ r := hxy ▸ hy
      simp only [if_pos hxy, pairCount_rrPairs_notmem hnx]
      omega
    · have hmr : x ∈ r := by
        rcases List.mem_cons.mp hm with h | h
        · exact absurd h.symm hxy
        · exact h
      have hlen : 1 ≤ r.length := List.length_pos.mpr (List.ne_nil_of_mem hmr)
      simp only [hxy, if_false, occCount_eq_one hr hmr, pairCount_rrPairs hr hmr]
      omega

theorem rrPairs_fst_ne_snd :
    ∀ {l : List Nat}, l.Nodup → ∀ p ∈ rrPairs l, p.1 ≠ p.2
  | [], _, p, hp => absurd hp (by simp [rrPairs])
  | y :: r, hnd, p, hp => by
    rcases List.nodup_cons.mp hnd with ⟨hy, hr⟩
    simp only [rrPairs, List.mem_append, List.mem_map] at hp
    rcases hp with ⟨z, hz, rfl⟩ | hp
    · intro h
      simp only at h
      exact hy (by rw [h]; exact hz)
    · exact rrPairs_fst_ne_snd hr p hp

theorem rrPairs_length : ∀ l : List Nat, (rrPairs l).length = l.length.choose 2
  | [] => rfl
  | x :: xs => by
    simp only [rrPairs, List.length_append, List.length_map, rrPairs_length xs,
      List.length_cons, Nat.choose_succ_succ, Nat.choose_one_right]

theorem applyOutcome_sumWDL (st : Nat → Standing) (n1 n2 : Nat) (r : MatchRes)
    (x : Nat) (hne : n1 ≠ n2) :
    sumWDL (applyOutcome st n1 n2 r x)
      = sumWDL (st x) + (if n1 = x ∨ n2 = x then 1 else 0) := by
  unfold applyOutcome
  split_ifs <;>
    (simp only [updStanding_apply, sumWDL]; split_ifs <;> simp_all <;> omega)

theorem applyOutcome_points (st : Nat → Standing) (n1 n2 : Nat) (r : MatchRes)
    (hne : n1 ≠ n2) (h : ∀ x, (st x).points = 3 * (st x).wins + (st x).draws) :
    ∀ x, (applyOutcome st n1 n2 r x).points
      = 3 * (applyOutcome st n1 n2 r x).wins + (applyOutcome st n1 n2 r x).draws := by
  intro x
  have hx := h x
  have hx1 := h n1
  have hx2 := h n2
  unfold applyOutcome
  split_ifs <;>
    (simp only [updStanding_apply]; split_ifs <;> simp_all <;> omega)

theorem roundRobinGo_length (agents : Nat → Policy) (gpm : Nat) :
    ∀ (ps : List (Nat × Nat)) (st : Nat → Standing) (acc : List MatchRes)
      (st2 : Nat → Standing) (ms : List MatchRes),
      roundRobinGo agents gpm ps st acc = some (st2, ms) →
      ms.length = acc.length + ps.length := by
  intro ps
  induction ps with
  | nil =>
    intro st acc st2 ms h
    simp only [roundRobinGo, Option.some_inj, Prod.mk.injEq] at h
    rw [← h.2]
    simp
  | cons p ps ih =>
    intro st acc st2 ms h
    unfold roundRobinGo at h
    cases hw : play_match (agents p.1) (agents p.2) gpm with
    | none => rw [hw] at h; exact absurd h (by simp)
    | some r =>
      rw [hw] at h
      have := ih _ _ _ _ h
      simp at this ⊢
      omega

theorem roundRobinGo_sumWDL (agents : Nat → Policy) (gpm : Nat) :
    ∀ (ps : List (Nat × Nat)) (st : Nat → Standing) (acc : List MatchRes)
      (st2 : Nat → Standing) (ms : List MatchRes),
      (∀ p ∈ ps, p.1 ≠ p.2) →
      roundRobinGo agents gpm ps st acc = some (st2, ms) →
      ∀ x, sumWDL (st2 x) = sumWDL (st x) + pairCount x ps := by
  intro ps
  induction ps with
  | nil =>
    intro st acc st2 ms _ h x
    simp only [roundRobinGo, Option.some_inj, Prod.mk.injEq] at h
    rw [← h.1]
    simp [pairCount]
  | cons p ps ih =>
    intro st acc st2 ms hne h x
    unfold roundRobinGo at h
    cases hw : play_match (agents p.1) (agents p.2) gpm with
    | none => rw [hw] at h; exact absurd h (by simp)
    | some r =>
      rw [hw] at h
      have hstep := applyOutcome_sumWDL st p.1 p.2 r x
        (hne p (List.mem_cons_self _ _))
      have hrest := ih _ _ _ _ (fun q hq => hne q (List.mem_cons_of_mem _ hq)) h x
      rw [hrest, hstep]
      simp only [pairCount]
      omega

theorem roundRobinGo_points (agents : Nat → Policy) (gpm : Nat) :
    ∀ (ps : List (Nat × Nat)) (st : Nat → Standing) (acc : List MatchRes)
      (st2 : Nat → Standing) (ms : List MatchRes),
      (∀ p ∈ ps, p.1 ≠ p.2) →
      (∀ x, (st x).points = 3 * (st x).wins + (st x).draws) →
      roundRobinGo agents gpm ps st acc = some (st2, ms) →
      ∀ x, (st2 x).points = 3 * (st2 x).wins + (st2 x).draws := by
  intro ps
  induction ps with
  | nil =>
    intro st acc st2 ms _ hinv h
    simp only [roundRobinGo, Option.some_inj, Prod.mk.injEq] at h
    rw [← h.1]
    exact hinv
  | cons p ps ih =>
    intro st acc st2 ms hne hinv h
    unfold roundRobinGo at h
    cases hw : play_match (agents p.1) (agents p.2) gpm with
    | none => rw [hw] at h; exact absurd h (by simp)
    | some r =>
      rw [hw] at h
      exact ih _ _ _ _ (fun q hq => hne q (List.mem_cons_of_mem _ hq))
        (applyOutcome_points st p.1 p.2 r (hne p (List.mem_cons_self _ _)) hinv) h

/-- Claim C8.  A round-robin over n distinct names plays exactly
n(n-1)/2 matches (one per unordered pair); every name takes part in
exactly n-1 of them, so its standings wins + draws + losses sum to n-1
(3 for n = 4, which has 6 matches); a won match is worth 3 points, a
drawn one 1 and a lost one 0, so points = 3*wins + draws throughout; and
the final ranking is sorted descending by (points, wins). -/
theorem round_robin_c8 (names : List Nat) (agents : Nat → Policy) (gpm : Nat)
    (st : Nat → Standing) (ms : List MatchRes) (hnd : names.Nodup)
    (h : round_robin names agents gpm = some (st, ms)) :
    ms.length = names.length * (names.length - 1) / 2
    ∧ (∀ x ∈ names, (st x).wins + (st x).draws + (st x).losses = names.length - 1)
    ∧ (∀ x, (st x).points = 3 * (st x).wins + (st x).draws)
    ∧ List.Sorted rankGe (rankings names st) := by
  refine ⟨?_, ?_, ?_, List.sorted_insertionSort rankGe _⟩
  · have hl := roundRobinGo_length agents gpm (rrPairs names) _ [] st ms h
    rw [hl, rrPairs_length, Nat.choose_two_right]
    simp
  · intro x hx
    have hs := roundRobinGo_sumWDL agents gpm (rrPairs names) _ [] st ms
      (rrPairs_fst_ne_snd hnd) h x
    have hc := pairCount_rrPairs hnd hx
    simpa [sumWDL, hc] using hs
  · exact roundRobinGo_points agents gpm (rrPairs names) _ [] st ms
      (rrPairs_fst_ne_snd hnd) (fun _ => rfl) h

/-- Witness for claim C8: four agents all playing the draw policy, one
game per match; six matches are played, each agent's tallies sum to 3,
and its points are 3*wins + draws. -/
theorem round_robin_c8_witness :
    ([1, 2, 3, 4] : List Nat).Nodup
    ∧ (round_robin [1, 2, 3, 4] (fun _ => drawPol) 1).elim False
        (fun p => p.2.length = 6
          ∧ (p.1 1).wins + (p.1 1).draws + (p.1 1).losses = 3
          ∧ (p.1 1).points = 3 * (p.1 1).wins + (p.1 1).draws) := by
  refine ⟨by decide, ?_⟩
  obtain ⟨⟨st, ms⟩, h⟩ :
      ∃ p, round_robin [1, 2, 3, 4] (fun _ => drawPol) 1 = some p := ⟨_, rfl⟩
  rw [h]
  have hc := round_robin_c8 [1, 2, 3, 4] (fun _ => drawPol) 1 st ms (by decide) h
  simp only [Option.elim]
  have h1 := hc.1
  have h2 := hc.2.1 1 (by norm_num)
  have h3 := hc.2.2.1 1
  refine ⟨by simpa using h1, by simpa using h2, h3⟩

end Morpion
